import Mathlib

/-!
Verification of the chess rules engine embedded in `main.py` (class `Board`).

The engine works over an 8×8 grid of optional case-coded piece characters
(`'P'`/`'p'` …), a side to move (`'w'`/`'b'`), four castling-right booleans,
an optional en-passant target square, two clocks, a history of
(move, snapshot) pairs and a log of position signatures used for the
threefold-repetition rule.  Each Lean definition below is a direct
translation of the corresponding Python method; strings are modelled as
`List Char` and Python exceptions as `Except Unit`.
-/

/-- A square is a (rank, file) pair, each in `[0,7]`; rank 0 is White's back
rank (as in the source, which indexes `board[rank][file]`). -/
abbrev Square := Nat × Nat

/-- The `FILES` constant of the source: `'abcdefgh'`. -/
def FILES : List Char := ['a', 'b', 'c', 'd', 'e', 'f', 'g', 'h']

/-- The `RANKS` constant of the source: `'12345678'`. -/
def RANKS : List Char := ['1', '2', '3', '4', '5', '6', '7', '8']

/-- The `Move` dataclass of the source. -/
structure Move where
  from_sq : Square
  to_sq : Square
  piece : Char
  captured : Option Char
  promotion : Option Char
  is_en_passant : Bool
  is_castle : Bool
deriving DecidableEq

/-- The snapshot dictionary pushed by `Board.push_move` (full pre-move state
except the history and signature log themselves). -/
structure Snapshot where
  board : Square → Option Char
  cr_K : Bool
  cr_Q : Bool
  cr_k : Bool
  cr_q : Bool
  en_passant_target : Option Square
  halfmove_clock : Nat
  fullmove_number : Nat
  turn : Char

/-- The mutable state of the Python `Board` object.  The grid is modelled as
a total function on squares; the four entries of the `castling_rights`
dictionary (insertion order `'K','Q','k','q'`) are four named booleans. -/
structure BoardState where
  board : Square → Option Char
  turn : Char
  cr_K : Bool
  cr_Q : Bool
  cr_k : Bool
  cr_q : Bool
  en_passant_target : Option Square
  halfmove_clock : Nat
  fullmove_number : Nat
  history : List (Move × Snapshot)
  fen_history : List (List Char)

/-- Functional update of one grid cell (a Python `board[r][c] = v`). -/
def updSq (bd : Square → Option Char) (sq : Square) (v : Option Char) :
    Square → Option Char :=
  fun s => if s = sq then v else bd s

/-- `Board.in_bounds`. -/
def in_bounds (r c : Int) : Bool :=
  0 ≤ r && r < 8 && 0 ≤ c && c < 8

/-- Read the grid at possibly-out-of-range (integer) coordinates; every read
in the source is guarded by `in_bounds`, which this bakes in. -/
def getSq (bd : Square → Option Char) (r c : Int) : Option Char :=
  if in_bounds r c then bd (r.toNat, c.toNat) else none

/-- `Board.piece_color`: uppercase pieces are white. -/
def piece_color (p : Char) : Char :=
  if p.isUpper then 'w' else 'b'

/-- `Board._opponent`. -/
def opponent (color : Char) : Char :=
  if color = 'w' then 'b' else 'w'

/-- `Board.find_king`: first square (row-major scan) holding the king of the
given color, if any. -/
def find_king (b : BoardState) (color : Char) : Option Square :=
  let k : Char := if color = 'w' then 'K' else 'k'
  ((List.range 8).flatMap (fun r => (List.range 8).map (fun c => (r, c)))).find?
    (fun sq => decide (b.board sq = some k))

/-- The promotion list `['Q', 'R', 'B', 'N']` used by pawn generation. -/
def promoPieces : List Char := ['Q', 'R', 'B', 'N']

/-- Pawn moves of `Board._piece_moves` (`pt == 'P'` branch): single push,
double push, the two diagonal captures, then en passant, in source order. -/
def pawnMoves (b : BoardState) (r c : Nat) (p : Char) : List Move :=
  let color := piece_color p
  let d : Int := if color = 'w' then 1 else -1
  let ri : Int := r
  let ci : Int := c
  let nr : Int := ri + d
  let pushes : List Move :=
    if in_bounds nr ci && (getSq b.board nr ci).isNone then
      let base : List Move :=
        if nr = 0 || nr = 7 then
          promoPieces.map (fun q =>
            ⟨(r, c), (nr.toNat, c), p, none,
              some (if color = 'w' then q else q.toLower), false, false⟩)
        else [⟨(r, c), (nr.toNat, c), p, none, none, false, false⟩]
      let start_rank : Nat := if color = 'w' then 1 else 6
      let nr2 : Int := ri + 2 * d
      base ++
        (if r = start_rank && in_bounds nr2 ci && (getSq b.board nr2 ci).isNone then
          [⟨(r, c), (nr2.toNat, c), p, none, none, false, false⟩]
        else [])
    else []
  let cap : Int → List Move := fun dc =>
    let nc : Int := ci + dc
    if in_bounds nr nc then
      match getSq b.board nr nc with
      | some target =>
        if piece_color target ≠ color then
          if nr = 0 || nr = 7 then
            promoPieces.map (fun q =>
              ⟨(r, c), (nr.toNat, nc.toNat), p, some target,
                some (if color = 'w' then q else q.toLower), false, false⟩)
          else [⟨(r, c), (nr.toNat, nc.toNat), p, some target, none, false, false⟩]
        else []
      | none => []
    else []
  let eps : List Move :=
    match b.en_passant_target with
    | some (ep_r, ep_c) =>
      if (ep_r : Int) = ri + d && ((ep_c : Int) - ci).natAbs = 1 then
        match b.board (r, ep_c) with
        | some target =>
          if target.toUpper = 'P' && piece_color target ≠ color then
            [⟨(r, c), (ep_r, ep_c), p, some target, none, true, false⟩]
          else []
        | none => []
      else []
    | none => []
  pushes ++ cap (-1) ++ cap 1 ++ eps

/-- Knight moves of `Board._piece_moves` (`pt == 'N'` branch). -/
def knightMoves (b : BoardState) (r c : Nat) (p : Char) : List Move :=
  let color := piece_color p
  let offs : List (Int × Int) :=
    [(2, 1), (1, 2), (-1, 2), (-2, 1), (-2, -1), (-1, -2), (1, -2), (2, -1)]
  offs.flatMap (fun off =>
    let nr : Int := (r : Int) + off.1
    let nc : Int := (c : Int) + off.2
    if in_bounds nr nc then
      match getSq b.board nr nc with
      | none => [⟨(r, c), (nr.toNat, nc.toNat), p, none, none, false, false⟩]
      | some target =>
        if piece_color target ≠ color then
          [⟨(r, c), (nr.toNat, nc.toNat), p, some target, none, false, false⟩]
        else []
    else [])

/-- One ray walk of the sliding-piece loop: steps from `(r, c)` in direction
`(dr, dc)` until blocked; the fuel (always called with 8) dominates the
length of any ray on an 8×8 board. -/
def ray (bd : Square → Option Char) (color : Char) (p : Char) (fr : Square)
    (r c dr dc : Int) : Nat → List Move
  | 0 => []
  | fuel + 1 =>
    let nr := r + dr
    let nc := c + dc
    if in_bounds nr nc then
      match getSq bd nr nc with
      | none =>
        ⟨fr, (nr.toNat, nc.toNat), p, none, none, false, false⟩ ::
          ray bd color p fr nr nc dr dc fuel
      | some target =>
        if piece_color target ≠ color then
          [⟨fr, (nr.toNat, nc.toNat), p, some target, none, false, false⟩]
        else []
    else []

/-- Sliding moves of `Board._piece_moves` (`pt in ('B','R','Q')` branch);
diagonal directions are appended before orthogonal ones, as in the source. -/
def sliderMoves (b : BoardState) (r c : Nat) (p : Char) : List Move :=
  let color := piece_color p
  let pt := p.toUpper
  let dirs : List (Int × Int) :=
    (if pt = 'B' || pt = 'Q' then [(1, 1), (1, -1), (-1, 1), (-1, -1)] else []) ++
    (if pt = 'R' || pt = 'Q' then [(1, 0), (-1, 0), (0, 1), (0, -1)] else [])
  dirs.flatMap (fun dir => ray b.board color p (r, c) r c dir.1 dir.2 8)

/-- King step moves of `Board._piece_moves` (`pt == 'K'` branch, before the
castling block): the eight surrounding squares in loop order. -/
def kingStepMoves (b : BoardState) (r c : Nat) (p : Char) : List Move :=
  let color := piece_color p
  let offs : List (Int × Int) :=
    [(-1, -1), (-1, 0), (-1, 1), (0, -1), (0, 1), (1, -1), (1, 0), (1, 1)]
  offs.flatMap (fun off =>
    let nr : Int := (r : Int) + off.1
    let nc : Int := (c : Int) + off.2
    if in_bounds nr nc then
      match getSq b.board nr nc with
      | none => [⟨(r, c), (nr.toNat, nc.toNat), p, none, none, false, false⟩]
      | some target =>
        if piece_color target ≠ color then
          [⟨(r, c), (nr.toNat, nc.toNat), p, some target, none, false, false⟩]
        else []
    else [])

/-- `Board._piece_moves` with `check_legality=False`: every attack pattern of
a piece, castling excluded. -/
def piece_moves_nc (b : BoardState) (r c : Nat) (p : Char) : List Move :=
  let pt := p.toUpper
  if pt = 'P' then pawnMoves b r c p
  else if pt = 'N' then knightMoves b r c p
  else if pt = 'B' || pt = 'R' || pt = 'Q' then sliderMoves b r c p
  else if pt = 'K' then kingStepMoves b r c p
  else []

/-- `Board.is_square_attacked`: scans the whole grid and asks whether any
piece of `by_color` has a non-castling pseudo-legal move landing on `sq`. -/
def is_square_attacked (b : BoardState) (sq : Square) (by_color : Char) : Bool :=
  (List.range 8).any (fun r =>
    (List.range 8).any (fun c =>
      match b.board (r, c) with
      | some p =>
        piece_color p = by_color &&
          (piece_moves_nc b r c p).any (fun m => decide (m.to_sq = sq))
      | none => false))

/-- `Board.king_in_check`: a missing king counts as being in check. -/
def king_in_check (b : BoardState) (color : Char) : Bool :=
  match find_king b color with
  | none => true
  | some kp => is_square_attacked b kp (opponent color)

/-- The castling block of `Board._piece_moves` (only reached with
`check_legality=True` and the king on its original square). -/
def castleMoves (b : BoardState) (r c : Nat) (p : Char) : List Move :=
  let color := piece_color p
  if (r, c) = (if color = 'w' then ((0 : Nat), (4 : Nat)) else (7, 4)) then
    let king_side := if color = 'w' then b.cr_K else b.cr_k
    let queen_side := if color = 'w' then b.cr_Q else b.cr_q
    let rank : Nat := if color = 'w' then 0 else 7
    let ks : List Move :=
      if king_side then
        if (b.board (rank, 5)).isNone && (b.board (rank, 6)).isNone then
          match b.board (rank, 7) with
          | some rook =>
            if rook.toUpper = 'R' && piece_color rook = color then
              if !is_square_attacked b (rank, 4) (opponent color) &&
                 !is_square_attacked b (rank, 5) (opponent color) &&
                 !is_square_attacked b (rank, 6) (opponent color) then
                [⟨(r, c), (rank, 6), p, none, none, false, true⟩]
              else []
            else []
          | none => []
        else []
      else []
    let qs : List Move :=
      if queen_side then
        if (b.board (rank, 3)).isNone && (b.board (rank, 2)).isNone &&
           (b.board (rank, 1)).isNone then
          match b.board (rank, 0) with
          | some rook =>
            if rook.toUpper = 'R' && piece_color rook = color then
              if !is_square_attacked b (rank, 4) (opponent color) &&
                 !is_square_attacked b (rank, 3) (opponent color) &&
                 !is_square_attacked b (rank, 2) (opponent color) then
                [⟨(r, c), (rank, 2), p, none, none, false, true⟩]
              else []
            else []
          | none => []
        else []
      else []
    ks ++ qs
  else []

/-- `Board._piece_moves`: with `check_legality` the king additionally gets
its castling moves, appended after the step moves. -/
def piece_moves (b : BoardState) (r c : Nat) (p : Char)
    (check_legality : Bool) : List Move :=
  if p.toUpper = 'K' && check_legality then
    kingStepMoves b r c p ++ castleMoves b r c p
  else piece_moves_nc b r c p

/-- `Board._make_move_internal`: the state transition on the position fields
(everything except turn, fullmove number, history and signature log), paired
with the move as mutated by the method (its `captured` field can be filled
in during application). -/
def make_move_internal (b : BoardState) (m : Move) : BoardState × Move :=
  let fr_r := m.from_sq.1
  let fr_c := m.from_sq.2
  let to_r := m.to_sq.1
  let to_c := m.to_sq.2
  let piece := (b.board (fr_r, fr_c)).getD ' '
  let hm : Nat :=
    if piece.toUpper = 'P' || m.captured.isSome then 0 else b.halfmove_clock + 1
  let bd1 :=
    if m.is_en_passant then updSq b.board (fr_r, to_c) none else b.board
  let m1 : Move :=
    if m.is_en_passant then { m with captured := b.board (fr_r, to_c) } else m
  let bd2 :=
    if m.is_castle then
      if to_c = 6 then
        updSq (updSq bd1 (to_r, 5) (bd1 (to_r, 7))) (to_r, 7) none
      else if to_c = 2 then
        updSq (updSq bd1 (to_r, 3) (bd1 (to_r, 0))) (to_r, 0) none
      else bd1
    else bd1
  let m2 : Move :=
    if (bd2 (to_r, to_c)).isSome && !m.is_en_passant then
      { m1 with captured := bd2 (to_r, to_c) }
    else m1
  let bd3 := updSq (updSq bd2 (to_r, to_c) (some piece)) (fr_r, fr_c) none
  let bd4 :=
    match m.promotion with
    | some q => updSq bd3 (to_r, to_c) (some q)
    | none => bd3
  let ep : Option Square :=
    if piece.toUpper = 'P' && ((to_r : Int) - (fr_r : Int)).natAbs = 2 then
      some ((to_r + fr_r) / 2, fr_c)
    else none
  let cK1 := if piece = 'K' then false else b.cr_K
  let cQ1 := if piece = 'K' then false else b.cr_Q
  let ck1 := if piece = 'k' then false else b.cr_k
  let cq1 := if piece = 'k' then false else b.cr_q
  let cK2 := if piece.toUpper = 'R' && fr_r = 0 && fr_c = 7 then false else cK1
  let cQ2 := if piece.toUpper = 'R' && fr_r = 0 && fr_c = 0 then false else cQ1
  let ck2 := if piece.toUpper = 'R' && fr_r = 7 && fr_c = 7 then false else ck1
  let cq2 := if piece.toUpper = 'R' && fr_r = 7 && fr_c = 0 then false else cq1
  let capR : Bool :=
    match m2.captured with
    | some t => t.toUpper = 'R'
    | none => false
  let cK3 := if capR && to_r = 0 && to_c = 7 then false else cK2
  let cQ3 := if capR && to_r = 0 && to_c = 0 then false else cQ2
  let ck3 := if capR && to_r = 7 && to_c = 7 then false else ck2
  let cq3 := if capR && to_r = 7 && to_c = 0 then false else cq2
  ({ b with
      board := bd4, halfmove_clock := hm, en_passant_target := ep,
      cr_K := cK3, cr_Q := cQ3, cr_k := ck3, cr_q := cq3 }, m2)

/-- `Board.generate_moves`: pseudo-legal moves of the side to move; with
`legal` each move is tried on a copy of the position and kept only if the
mover's own king is not attacked afterwards. -/
def generate_moves (b : BoardState) (legal : Bool) : List Move :=
  let moves := (List.range 8).flatMap (fun r =>
    (List.range 8).flatMap (fun c =>
      match b.board (r, c) with
      | some p => if piece_color p = b.turn then piece_moves b r c p true else []
      | none => []))
  if legal then
    moves.filter (fun m => !king_in_check (make_move_internal b m).1 b.turn)
  else moves

/-- Single-character decimal digit, as produced by Python's `str(empty)` for
the run-length counts 1–8 of the placement field. -/
def digitChar : Nat → Char
  | 0 => '0' | 1 => '1' | 2 => '2' | 3 => '3' | 4 => '4'
  | 5 => '5' | 6 => '6' | 7 => '7' | 8 => '8' | 9 => '9'
  | _ => '?'

/-- Serialization of one rank of `Board._fen_for_repetition`: `k` columns
left to process starting at column `c` with `e` pending empty squares,
flushing the count before a piece and at the end of the rank. -/
def rowStrGo (f : Nat → Option Char) : Nat → Nat → Nat → List Char
  | 0, _, e => if 0 < e then [digitChar e] else []
  | k + 1, c, e =>
    match f c with
    | none => rowStrGo f k (c + 1) (e + 1)
    | some p => (if 0 < e then [digitChar e] else []) ++ p :: rowStrGo f k (c + 1) 0

/-- One serialized rank: the eight columns, no pending empties. -/
def rowStr (f : Nat → Option Char) : List Char :=
  rowStrGo f 8 0 0

/-- The ranks of the placement field, highest rank first: `revRows F 8` is
`[rowStr (F 7), …, rowStr (F 0)]`, matching the `range(7,-1,-1)` loop. -/
def revRows (F : Nat → Nat → Option Char) : Nat → List (List Char)
  | 0 => []
  | k + 1 => rowStr (F k) :: revRows F k

/-- `'/'.join(rows)`. -/
def joinSlash : List (List Char) → List Char
  | [] => []
  | [x] => x
  | x :: y :: ys => x ++ '/' :: joinSlash (y :: ys)

/-- The placement field of the signature: the eight serialized ranks,
highest first, joined with `'/'`. -/
def placementStr (F : Nat → Nat → Option Char) : List Char :=
  joinSlash (revRows F 8)

/-- The side-to-move field of the signature. -/
def turnStr (t : Char) : List Char :=
  if t = 'w' then ['w'] else ['b']

/-- The castling field of the signature: the still-set rights in dictionary
order `KQkq`, or `'-'` when none remain. -/
def castStr (cK cQ ck cq : Bool) : List Char :=
  let cast : List Char :=
    (if cK then ['K'] else []) ++ (if cQ then ['Q'] else []) ++
    (if ck then ['k'] else []) ++ (if cq then ['q'] else [])
  if cast = [] then ['-'] else cast

/-- The en-passant field of the signature. -/
def epStr (ep : Option Square) : List Char :=
  match ep with
  | some epv => [FILES.getD epv.2 '?', RANKS.getD epv.1 '?']
  | none => ['-']

/-- `Board._fen_for_repetition`: the position signature — placement, side to
move, castling rights (dictionary order `KQkq`) and en-passant target, the
two clocks deliberately excluded. -/
def fen_for_repetition (b : BoardState) : List Char :=
  placementStr (fun r c => b.board (r, c)) ++
    ' ' :: (turnStr b.turn ++
      ' ' :: (castStr b.cr_K b.cr_Q b.cr_k b.cr_q ++
        ' ' :: epStr b.en_passant_target))

/-- Python `str.isspace` on the characters `str.split()` separates on. -/
def isSpace (c : Char) : Bool :=
  c = ' ' || c = '\t' || c = '\n' || c = '\x0b' || c = '\x0c' || c = '\r'

/-- Worker for `splitWs`; `cur` holds the current token reversed. -/
def splitWsAux (cur : List Char) : List Char → List (List Char)
  | [] => if cur = [] then [] else [cur.reverse]
  | c :: rest =>
    if isSpace c then
      if cur = [] then splitWsAux [] rest else cur.reverse :: splitWsAux [] rest
    else splitWsAux (c :: cur) rest

/-- Python `str.split()` with no argument: whitespace runs separate tokens
and empty tokens are dropped. -/
def splitWs (cs : List Char) : List (List Char) :=
  splitWsAux [] cs

/-- Worker for `splitOnSlash`. -/
def splitSlashAux (cur : List Char) : List Char → List (List Char)
  | [] => [cur.reverse]
  | c :: rest =>
    if c = '/' then cur.reverse :: splitSlashAux [] rest
    else splitSlashAux (c :: cur) rest

/-- Python `str.split('/')` (keeps empty segments). -/
def splitOnSlash (cs : List Char) : List (List Char) :=
  splitSlashAux [] cs

/-- Index of a character in a list (`str.index`, as an option instead of a
`ValueError`). -/
def indexOfChar : List Char → Char → Option Nat
  | [], _ => none
  | x :: xs, c => if x = c then some 0 else (indexOfChar xs c).map (· + 1)

/-- Python `int(s)` restricted to plain decimal numerals; anything else is a
`ValueError`, modelled as `none`. -/
def parseNat? (cs : List Char) : Option Nat :=
  if cs ≠ [] && cs.all Char.isDigit then
    some (cs.foldl (fun acc c => acc * 10 + (c.toNat - 48)) 0)
  else none

/-- The placement loop of `Board.set_fen` for one rank: digits advance the
file index, other characters are written at `board[r][file_idx]`; an
out-of-range write is Python's `IndexError`. -/
def parseRowGo (r : Nat) (cs : List Char) (idx : Nat)
    (bd : Square → Option Char) : Except Unit (Square → Option Char) :=
  match cs with
  | [] => Except.ok bd
  | ch :: rest =>
    if ch.isDigit then parseRowGo r rest (idx + (ch.toNat - 48)) bd
    else if r < 8 && idx < 8 then
      parseRowGo r rest (idx + 1) (updSq bd (r, idx) (some ch))
    else Except.error ()

/-- The outer placement loop of `Board.set_fen`: ranks are processed lowest
rank first (`rows[::-1]`), `r` counting up from 0. -/
def parseRows (rows : List (List Char)) (r : Nat)
    (bd : Square → Option Char) : Except Unit (Square → Option Char) :=
  match rows with
  | [] => Except.ok bd
  | row :: rest =>
    match parseRowGo r row 0 bd with
    | Except.ok bd' => parseRows rest (r + 1) bd'
    | Except.error e => Except.error e

/-- The en-passant field of `Board.set_fen`: `'-'` or a file letter followed
by a rank digit; a missing second character is an `IndexError` and an unknown
character a `ValueError`. -/
def parseEp (f3 : List Char) : Except Unit (Option Square) :=
  if f3 = ['-'] then Except.ok none
  else
    match f3 with
    | e0 :: e1 :: _ =>
      match indexOfChar RANKS e1, indexOfChar FILES e0 with
      | some r, some f => Except.ok (some (r, f))
      | _, _ => Except.error ()
    | _ => Except.error ()

/-- The state assembled by `Board.set_fen` before the signature log is
seeded. -/
def assembled (bd : Square → Option Char) (t : Char) (cK cQ ck cq : Bool)
    (ep : Option Square) (hm fm : Nat) : BoardState :=
  ⟨bd, t, cK, cQ, ck, cq, ep, hm, fm, [], []⟩

/-- The final state of `Board.set_fen`: history reset and the signature log
seeded with the initial position's signature. -/
def finishBoard (bd : Square → Option Char) (t : Char) (cK cQ ck cq : Bool)
    (ep : Option Square) (hm fm : Nat) : BoardState :=
  { assembled bd t cK cQ ck cq ep hm fm with
      fen_history := [fen_for_repetition (assembled bd t cK cQ ck cq ep hm fm)] }

/-- `Board.set_fen`: parses a 4–6 field FEN-like string; Python exceptions
(`IndexError` on missing fields or out-of-range writes, `ValueError` on bad
en-passant or clock fields) are modelled as `Except.error`.  With fewer than
6 fields the clocks get the defaults 0 and 1. -/
def set_fen (fen : List Char) : Except Unit BoardState :=
  let parts := splitWs fen
  match parts.get? 0 with
  | none => Except.error ()
  | some f0 =>
    match parseRows (splitOnSlash f0).reverse 0 (fun _ => none) with
    | Except.error _ => Except.error ()
    | Except.ok bd =>
      match parts.get? 1, parts.get? 2, parts.get? 3 with
      | some f1, some f2, some f3 =>
        let t : Char := if f1 = ['w'] then 'w' else 'b'
        let cK := f2.contains 'K'
        let cQ := f2.contains 'Q'
        let ck := f2.contains 'k'
        let cq := f2.contains 'q'
        match parseEp f3 with
        | Except.error _ => Except.error ()
        | Except.ok ep =>
          if 6 ≤ parts.length then
            match parts.get? 4, parts.get? 5 with
            | some f4, some f5 =>
              match parseNat? f4, parseNat? f5 with
              | some hm, some fm =>
                Except.ok (finishBoard bd t cK cQ ck cq ep hm fm)
              | _, _ => Except.error ()
            | _, _ => Except.error ()
          else Except.ok (finishBoard bd t cK cQ ck cq ep 0 1)
      | _, _, _ => Except.error ()

/-- The FEN of `Board.set_startpos`, used by the default constructor. -/
def startFen : List Char :=
  "rnbqkbnr/pppppppp/8/8/8/8/PPPPPPPP/RNBQKBNR w KQkq - 0 1".toList

/-- A deliberately empty fallback state, used only to turn `set_fen` results
into total values for concrete test positions. -/
def emptyBoard : BoardState :=
  ⟨fun _ => none, 'w', false, false, false, false, none, 0, 1, [], []⟩

/-- Run `set_fen` and extract the board, defaulting to `emptyBoard` (every
use below is on a FEN whose parse is also proved/checked to succeed). -/
def parseB (s : String) : BoardState :=
  match set_fen s.toList with
  | Except.ok b => b
  | Except.error _ => emptyBoard

/-- The snapshot dictionary built at the top of `Board.push_move`. -/
def snapOf (b : BoardState) : Snapshot :=
  ⟨b.board, b.cr_K, b.cr_Q, b.cr_k, b.cr_q, b.en_passant_target,
    b.halfmove_clock, b.fullmove_number, b.turn⟩

/-- `Board.push_move` up to (but excluding) the final signature append:
snapshot, apply, bump the fullmove number after Black's move, flip the
turn. -/
def push_core (b : BoardState) (m : Move) : BoardState :=
  let b1 := (make_move_internal b m).1
  { b1 with
      history := b.history ++ [((make_move_internal b m).2, snapOf b)],
      fullmove_number :=
        if b1.turn = 'b' then b1.fullmove_number + 1 else b1.fullmove_number,
      turn := opponent b1.turn }

/-- `Board.push_move`: apply the move and append the new position's
signature to the log. -/
def push_move (b : BoardState) (m : Move) : BoardState :=
  let b2 := push_core b m
  { b2 with fen_history := b2.fen_history ++ [fen_for_repetition b2] }

/-- `Board.undo_move`: restore the snapshot of the most recent history entry
and pop one signature; a no-op on an empty history. -/
def undo_move (b : BoardState) : BoardState :=
  match b.history.getLast? with
  | none => b
  | some ms =>
    { board := ms.2.board, turn := ms.2.turn,
      cr_K := ms.2.cr_K, cr_Q := ms.2.cr_Q, cr_k := ms.2.cr_k, cr_q := ms.2.cr_q,
      en_passant_target := ms.2.en_passant_target,
      halfmove_clock := ms.2.halfmove_clock,
      fullmove_number := ms.2.fullmove_number,
      history := b.history.dropLast,
      fen_history :=
        if b.fen_history = [] then b.fen_history else b.fen_history.dropLast }

/-- The square parsing of `Board.make_move_uci`: the first four characters
as from/to squares, `none` on Python's `ValueError`. -/
def parse_uci_squares (uci : List Char) : Option (Square × Square) :=
  match uci with
  | u0 :: u1 :: u2 :: u3 :: _ =>
    match indexOfChar FILES u0, indexOfChar RANKS u1,
          indexOfChar FILES u2, indexOfChar RANKS u3 with
    | some ff, some fr, some tf, some tr => some ((fr, ff), (tr, tf))
    | _, _, _, _ => none
  | _ => none

/-- The legal moves matching the parsed from/to pair (`candidates` in
`Board.make_move_uci`). -/
def uciCandidates (b : BoardState) (frto : Square × Square) : List Move :=
  (generate_moves b true).filter
    (fun m => decide (m.from_sq = frto.1) && decide (m.to_sq = frto.2))

/-- The selection loop of `Board.make_move_uci`: fail on no candidate, fail
when promotion candidates exist but no promotion letter was given, otherwise
take the first candidate whose promotion field matches the letter (or the
first non-promotion candidate when no letter was given). -/
def uciPick (b : BoardState) (frto : Square × Square)
    (promotion : Option Char) : Option Move :=
  let candidates := uciCandidates b frto
  if candidates.isEmpty then none
  else
    let promos := candidates.filter (fun m => m.promotion.isSome)
    if !promos.isEmpty && promotion.isNone then none
    else
      candidates.find? (fun m =>
        match promotion with
        | some pl =>
          match m.promotion with
          | some mp => pl.toLower = mp.toLower
          | none => false
        | none => m.promotion.isNone)

/-- `Board.make_move_uci`: parse, find the matching legal move (a promotion
letter being required as soon as promotion candidates exist), push it; every
failure returns `None` and leaves the state untouched. -/
def make_move_uci (b : BoardState) (uci : List Char) : Option Move × BoardState :=
  if uci.length < 4 then (none, b)
  else
    match parse_uci_squares uci with
    | none => (none, b)
    | some frto =>
      match uciPick b frto (uci.get? 4) with
      | some m => (some m, push_move b m)
      | none => (none, b)

/-- The result type of `Board.game_status`. -/
inductive GStatus where
  | checkmate (winner : Char)
  | stalemate
  | draw
  | ongoing
deriving DecidableEq

/-- `Board.game_status`: no legal moves means checkmate or stalemate, then
the 50-move rule, then threefold repetition via the signature log. -/
def game_status (b : BoardState) : GStatus :=
  let moves := generate_moves b true
  if moves.isEmpty then
    if king_in_check b b.turn then GStatus.checkmate (opponent b.turn)
    else GStatus.stalemate
  else if 100 ≤ b.halfmove_clock then GStatus.draw
  else if 3 ≤ b.fen_history.count (fen_for_repetition b) then GStatus.draw
  else GStatus.ongoing

theorem push_move_history (b : BoardState) (m : Move) :
    (push_move b m).history =
      b.history ++ [((make_move_internal b m).2, snapOf b)] := rfl

theorem push_move_fen_history (b : BoardState) (m : Move) :
    (push_move b m).fen_history =
      b.fen_history ++ [fen_for_repetition (push_core b m)] := rfl

theorem undo_push (b : BoardState) (m : Move) :
    undo_move (push_move b m) = b := by
  unfold undo_move
  rw [push_move_history, List.getLast?_concat]
  dsimp only
  rw [List.dropLast_concat, push_move_fen_history]
  have hne : b.fen_history ++ [fen_for_repetition (push_core b m)] ≠ [] := by simp
  rw [if_neg hne, List.dropLast_concat]
  rfl

/-- C5: applying a legal move with `push_move` and then calling `undo_move`
restores the pre-move board state exactly (piece placement, castling rights,
en-passant target, clocks, side to move — indeed the whole state including
history and signature log). -/
theorem legal_push_undo_roundtrip (b : BoardState) (m : Move)
    (_h : m ∈ generate_moves b true) :
    undo_move (push_move b m) = b :=
  undo_push b m

/-- A two-kings position used as a concrete test state. -/
def kingsBoard : BoardState := parseB "4k3/8/8/8/8/8/8/4K3 w - - 0 1"

/-- The king move e1–d1 on `kingsBoard`. -/
def kMoveD1 : Move := ⟨(0, 4), (0, 3), 'K', none, none, false, false⟩

theorem legal_push_undo_roundtrip_witness :
    kMoveD1 ∈ generate_moves kingsBoard true ∧
      undo_move (push_move kingsBoard kMoveD1) = kingsBoard :=
  ⟨by decide, legal_push_undo_roundtrip kingsBoard kMoveD1 (by decide)⟩

/-- C1: evaluation of the attack oracle at the failing input.  With a lone
white pawn on e5 = square (4,4) and the diagonally forward-adjacent square
f6 = (5,5) empty (and no en-passant target), `is_square_attacked` reports f6
as NOT attacked by White, because the pawn branch of `_piece_moves` only
emits diagonal moves onto occupied squares. -/
theorem pawn_attack_on_empty_square_missed :
    (set_fen "8/8/8/4P3/8/8/8/8 w - - 0 1".toList).isOk = true ∧
      (parseB "8/8/8/4P3/8/8/8/8 w - - 0 1").board (4, 4) = some 'P' ∧
      (parseB "8/8/8/4P3/8/8/8/8 w - - 0 1").board (5, 5) = none ∧
      (parseB "8/8/8/4P3/8/8/8/8 w - - 0 1").en_passant_target = none ∧
      is_square_attacked (parseB "8/8/8/4P3/8/8/8/8 w - - 0 1") (5, 5) 'w' = false := by
  refine ⟨rfl, rfl, rfl, rfl, by decide⟩

/-- C3: `set_fen` silently accepts structurally invalid FEN placement
fields.  The unknown letter `'x'` is stored as a piece on a8 = (7,0) and a
rank with only seven squares parses as well — construction neither throws
nor returns a failure for these malformed inputs. -/
theorem malformed_fen_silently_accepted :
    (set_fen "x7/8/8/8/8/8/8/8 w - - 0 1".toList).isOk = true ∧
      (parseB "x7/8/8/8/8/8/8/8 w - - 0 1").board (7, 0) = some 'x' ∧
      (set_fen "8/8/8/8/8/8/8/7 w - - 0 1".toList).isOk = true := by
  refine ⟨rfl, rfl, rfl⟩

/-- The game-status classification exactly as the spec words it: no legal
moves means checkmate (opponent wins) when in check and stalemate otherwise;
then a halfmove clock of at least 100 is a draw; then a signature occurring
at least three times in the signature log is a draw; otherwise ongoing. -/
def statusSpec (b : BoardState) : GStatus :=
  if generate_moves b true = [] then
    if king_in_check b b.turn then GStatus.checkmate (opponent b.turn)
    else GStatus.stalemate
  else if 100 ≤ b.halfmove_clock then GStatus.draw
  else if 3 ≤ b.fen_history.count (fen_for_repetition b) then GStatus.draw
  else GStatus.ongoing

/-- C6: `game_status` classifies every position according to the spec's
priority order. -/
theorem game_status_matches_spec (b : BoardState) :
    game_status b = statusSpec b := by
  unfold game_status statusSpec
  cases h : generate_moves b true with
  | nil => simp
  | cons x xs => simp

theorem set_fen_short_defaults (fen : List Char) (b : BoardState)
    (h5 : (splitWs fen).length < 6) (hok : set_fen fen = Except.ok b) :
    b.halfmove_clock = 0 ∧ b.fullmove_number = 1 := by
  unfold set_fen at hok
  dsimp only at hok
  repeat' split at hok
  all_goals first
    | exact absurd hok (fun h => Except.noConfusion h)
    | omega
    | (injection hok with h; subst h; exact ⟨rfl, rfl⟩)

/-- C9: `set_fen` only reads the clock fields when at least six fields are
present; a well-formed 5-field FEN has its supplied halfmove value silently
ignored (defaults 0 and 1), and this changes 50-move-rule evaluation: the
same position is `ongoing` with a 5-field FEN carrying clock 100 but `draw`
once a sixth field makes the clock readable. -/
theorem five_field_fen_ignores_clock :
    (∀ fen b, (splitWs fen).length = 5 → set_fen fen = Except.ok b →
      b.halfmove_clock = 0 ∧ b.fullmove_number = 1) ∧
    game_status (parseB "k7/8/8/8/8/8/8/K7 w - - 100") = GStatus.ongoing ∧
    game_status (parseB "k7/8/8/8/8/8/8/K7 w - - 100 1") = GStatus.draw := by
  refine ⟨fun fen b h5 hok => set_fen_short_defaults fen b (by omega) hok,
    by decide, by decide⟩

theorem five_field_fen_ignores_clock_witness :
    (splitWs "k7/8/8/8/8/8/8/K7 w - - 100".toList).length = 5 ∧
      ((parseB "k7/8/8/8/8/8/8/K7 w - - 100").halfmove_clock = 0 ∧
        (parseB "k7/8/8/8/8/8/8/K7 w - - 100").fullmove_number = 1) :=
  ⟨by decide, five_field_fen_ignores_clock.1 "k7/8/8/8/8/8/8/K7 w - - 100".toList
    (parseB "k7/8/8/8/8/8/8/K7 w - - 100") (by decide) rfl⟩

/-- A freshly parsed board has an empty history and exactly the initial
position's signature in its log. -/
theorem set_fen_fresh (fen : List Char) (b : BoardState)
    (hok : set_fen fen = Except.ok b) :
    b.history = [] ∧ b.fen_history.length = 1 := by
  unfold set_fen at hok
  dsimp only at hok
  repeat' split at hok
  all_goals first
    | exact absurd hok (fun h => Except.noConfusion h)
    | (injection hok with h; subst h; exact ⟨rfl, rfl⟩)

/-- A push or undo step, used to talk about arbitrary operation sequences. -/
inductive BOp where
  | push (m : Move)
  | undo
deriving DecidableEq

/-- Apply one operation to a board state. -/
def applyOp (b : BoardState) : BOp → BoardState
  | BOp.push m => push_move b m
  | BOp.undo => undo_move b

/-- Apply a sequence of push/undo operations, left to right. -/
def applyOps : BoardState → List BOp → BoardState
  | b, [] => b
  | b, op :: ops => applyOps (applyOp b op) ops

/-- The signature-log invariant: one signature per applied move, plus the
initial position. -/
def sigInv (b : BoardState) : Prop :=
  b.fen_history.length = b.history.length + 1

theorem push_move_lengths (b : BoardState) (m : Move) :
    (push_move b m).fen_history.length = b.fen_history.length + 1 ∧
      (push_move b m).history.length = b.history.length + 1 := by
  rw [push_move_fen_history, push_move_history]
  simp

theorem undo_move_lengths (b : BoardState) (hinv : sigInv b)
    (hne : b.history ≠ []) :
    (undo_move b).fen_history.length + 1 = b.fen_history.length ∧
      (undo_move b).history.length + 1 = b.history.length := by
  unfold sigInv at hinv
  have hlen : 1 ≤ b.history.length := by
    cases h : b.history with
    | nil => exact absurd h hne
    | cons x xs => simp
  obtain ⟨x, hx⟩ : ∃ x, b.history.getLast? = some x := by
    cases h : b.history.getLast? with
    | none => exact absurd (List.getLast?_eq_none_iff.mp h) hne
    | some y => exact ⟨y, rfl⟩
  unfold undo_move
  rw [hx]
  have hfne : b.fen_history ≠ [] := by
    intro h
    rw [h] at hinv
    simp at hinv
  dsimp only
  rw [if_neg hfne]
  constructor
  · have := List.length_dropLast b.fen_history
    omega
  · have := List.length_dropLast b.history
    omega

theorem applyOp_sigInv (b : BoardState) (op : BOp) (hinv : sigInv b) :
    sigInv (applyOp b op) := by
  cases op with
  | push m =>
    show sigInv (push_move b m)
    have h := push_move_lengths b m
    unfold sigInv at hinv ⊢
    omega
  | undo =>
    show sigInv (undo_move b)
    by_cases hne : b.history = []
    · have hnone : b.history.getLast? = none := by rw [hne]; rfl
      unfold undo_move
      rw [hnone]
      exact hinv
    · have h := undo_move_lengths b hinv hne
      unfold sigInv at hinv ⊢
      omega

theorem applyOps_sigInv (ops : List BOp) (b : BoardState) (hinv : sigInv b) :
    sigInv (applyOps b ops) := by
  induction ops generalizing b with
  | nil => exact hinv
  | cons op ops ih => exact ih (applyOp b op) (applyOp_sigInv b op hinv)

/-- C8: starting from any freshly constructed board, after any sequence of
push/undo operations the signature log is exactly one longer than the list
of currently applied moves; each push appends exactly one signature and each
undo of a previously pushed move removes exactly one. -/
theorem sig_log_tracks_applied_moves (fen : List Char) (b0 : BoardState)
    (hok : set_fen fen = Except.ok b0) (ops : List BOp) :
    (applyOps b0 ops).fen_history.length = (applyOps b0 ops).history.length + 1 ∧
    (∀ m, (push_move (applyOps b0 ops) m).fen_history.length =
        (applyOps b0 ops).fen_history.length + 1) ∧
    ((applyOps b0 ops).history ≠ [] →
      (undo_move (applyOps b0 ops)).fen_history.length + 1 =
        (applyOps b0 ops).fen_history.length) := by
  have hfresh := set_fen_fresh fen b0 hok
  have hinv0 : sigInv b0 := by
    unfold sigInv
    rw [hfresh.1, hfresh.2]
    rfl
  have hinv := applyOps_sigInv ops b0 hinv0
  refine ⟨hinv, fun m => (push_move_lengths _ m).1,
    fun hne => (undo_move_lengths _ hinv hne).1⟩

/-- The standard starting position. -/
def startBoard : BoardState :=
  parseB "rnbqkbnr/pppppppp/8/8/8/8/PPPPPPPP/RNBQKBNR w KQkq - 0 1"

theorem sig_log_tracks_applied_moves_witness :
    (applyOps startBoard [BOp.push ⟨(1, 4), (3, 4), 'P', none, none, false, false⟩,
        BOp.undo]).fen_history.length =
      (applyOps startBoard [BOp.push ⟨(1, 4), (3, 4), 'P', none, none, false, false⟩,
        BOp.undo]).history.length + 1 :=
  (sig_log_tracks_applied_moves startFen startBoard rfl
    [BOp.push ⟨(1, 4), (3, 4), 'P', none, none, false, false⟩, BOp.undo]).1

theorem uciCandidates_mem (b : BoardState) (frto : Square × Square) (m : Move)
    (h : m ∈ uciCandidates b frto) :
    m ∈ generate_moves b true ∧ m.from_sq = frto.1 ∧ m.to_sq = frto.2 := by
  have h' := List.mem_filter.mp h
  refine ⟨h'.1, ?_, ?_⟩
  · have := h'.2
    simp only [Bool.and_eq_true, decide_eq_true_eq] at this
    exact this.1
  · have := h'.2
    simp only [Bool.and_eq_true, decide_eq_true_eq] at this
    exact this.2

theorem uciPick_cases (b : BoardState) (frto : Square × Square)
    (promotion : Option Char) :
    uciPick b frto promotion = none ∨
    ∃ m, uciPick b frto promotion = some m ∧ m ∈ uciCandidates b frto ∧
      (promotion = none → m.promotion = none ∧
        ∀ m' ∈ uciCandidates b frto, m'.promotion = none) ∧
      (∀ pl, promotion = some pl →
        ∃ mp, m.promotion = some mp ∧ pl.toLower = mp.toLower) := by
  unfold uciPick
  dsimp only
  split
  · exact Or.inl rfl
  split
  · exact Or.inl rfl
  next hpro =>
    cases hfind : (uciCandidates b frto).find? (fun m =>
        match promotion with
        | some pl =>
          match m.promotion with
          | some mp => pl.toLower = mp.toLower
          | none => false
        | none => m.promotion.isNone) with
    | none => exact Or.inl rfl
    | some m =>
      refine Or.inr ⟨m, rfl, List.mem_of_find?_eq_some hfind, ?_, ?_⟩
      · intro hponone
        have hpred := List.find?_some hfind
        rw [hponone] at hpred
        constructor
        · exact Option.isNone_iff_eq_none.mp (by simpa using hpred)
        · intro m' hm'
          subst hponone
          simp only [Bool.not_eq_true', Bool.and_eq_true, Bool.not_eq_false] at hpro
          have hpe : ((uciCandidates b frto).filter
              (fun m => m.promotion.isSome)).isEmpty = true := by
            cases hh : ((uciCandidates b frto).filter
                (fun m => m.promotion.isSome)).isEmpty with
            | true => rfl
            | false => exact absurd ⟨hh, rfl⟩ hpro
          have hnil := List.isEmpty_iff.mp hpe
          have := List.filter_eq_nil_iff.mp hnil m' hm'
          exact Option.not_isSome_iff_eq_none.mp this
      · intro pl hpl
        have hpred := List.find?_some hfind
        rw [hpl] at hpred
        cases hmp : m.promotion with
        | none => rw [hmp] at hpred; exact absurd hpred (by simp)
        | some mp =>
          rw [hmp] at hpred
          exact ⟨mp, rfl, by simpa using hpred⟩

theorem mmu_short (b : BoardState) (uci : List Char) (h4 : uci.length < 4) :
    make_move_uci b uci = (none, b) := by
  unfold make_move_uci
  rw [if_pos h4]

theorem mmu_parse_fail (b : BoardState) (uci : List Char)
    (hp : parse_uci_squares uci = none) :
    make_move_uci b uci = (none, b) := by
  unfold make_move_uci
  split
  · rfl
  · rw [hp]

theorem mmu_struct (b : BoardState) (uci : List Char) :
    make_move_uci b uci = (none, b) ∨
    ∃ m frto,
      parse_uci_squares uci = some frto ∧
      make_move_uci b uci = (some m, push_move b m) ∧
      m ∈ generate_moves b true ∧ m.from_sq = frto.1 ∧ m.to_sq = frto.2 ∧
      (uci.get? 4 = none → m.promotion = none ∧
        ∀ m' ∈ generate_moves b true, m'.from_sq = frto.1 → m'.to_sq = frto.2 →
          m'.promotion = none) ∧
      (∀ pl, uci.get? 4 = some pl →
        ∃ mp, m.promotion = some mp ∧ pl.toLower = mp.toLower) := by
  by_cases h4 : uci.length < 4
  · exact Or.inl (mmu_short b uci h4)
  cases hp : parse_uci_squares uci with
  | none => exact Or.inl (mmu_parse_fail b uci hp)
  | some frto =>
    have hdef : make_move_uci b uci =
        (match uciPick b frto (uci.get? 4) with
          | some m => (some m, push_move b m)
          | none => (none, b)) := by
      unfold make_move_uci
      rw [if_neg h4, hp]
    rcases uciPick_cases b frto (uci.get? 4) with hnone | ⟨m, hm, hmem, hno, hsome⟩
    · rw [hnone] at hdef
      exact Or.inl hdef
    · rw [hm] at hdef
      obtain ⟨hgen, hfr, hto⟩ := uciCandidates_mem b frto m hmem
      refine Or.inr ⟨m, frto, rfl, hdef, hgen, hfr, hto, ?_, hsome⟩
      intro hg4
      obtain ⟨h1, h2⟩ := hno hg4
      refine ⟨h1, fun m' hm' hfr' hto' => ?_⟩
      refine h2 m' (List.mem_filter.mpr ⟨hm', ?_⟩)
      simp [hfr', hto']

/-- C4: `make_move_uci` fails (returning `None`) and leaves the whole board
state unchanged whenever the code is shorter than 4 characters, names an
invalid square, matches no legal move's from/to pair, or matches promotion
candidates without a promotion letter being supplied; every failure is the
same result value `(none, b)`; on success it pushes exactly the matching
legal move and returns it. -/
theorem make_move_uci_spec (b : BoardState) (uci : List Char) :
    ((make_move_uci b uci).1 = none → (make_move_uci b uci).2 = b) ∧
    (uci.length < 4 → make_move_uci b uci = (none, b)) ∧
    (parse_uci_squares uci = none → make_move_uci b uci = (none, b)) ∧
    (∀ fr tsq, parse_uci_squares uci = some (fr, tsq) →
      ((∀ m ∈ generate_moves b true, ¬(m.from_sq = fr ∧ m.to_sq = tsq)) →
        make_move_uci b uci = (none, b)) ∧
      ((∃ m ∈ generate_moves b true,
          m.from_sq = fr ∧ m.to_sq = tsq ∧ m.promotion.isSome) → uci.length < 5 →
        make_move_uci b uci = (none, b))) ∧
    (∀ m, (make_move_uci b uci).1 = some m →
      m ∈ generate_moves b true ∧
      (∃ fr tsq, parse_uci_squares uci = some (fr, tsq) ∧
        m.from_sq = fr ∧ m.to_sq = tsq) ∧
      (make_move_uci b uci).2 = push_move b m) := by
  refine ⟨?_, fun h4 => mmu_short b uci h4, fun hp => mmu_parse_fail b uci hp, ?_, ?_⟩
  · intro hnone
    rcases mmu_struct b uci with h | ⟨m, frto, _, heq, _⟩
    · rw [h]
    · rw [heq] at hnone
      exact absurd hnone (by simp)
  · intro fr tsq hp
    constructor
    · intro hnomatch
      rcases mmu_struct b uci with h | ⟨m, frto, hp', _, hgen, hfr, hto, _⟩
      · exact h
      · rw [hp] at hp'
        injection hp' with hfrto
        subst hfrto
        exact absurd ⟨hfr, hto⟩ (hnomatch m hgen)
    · rintro ⟨m, hgen, hfr, hto, hpromo⟩ h5
      rcases mmu_struct b uci with h | ⟨m', frto, hp', _, _, _, _, hno, _⟩
      · exact h
      · exfalso
        rw [hp] at hp'
        injection hp' with hfrto
        subst hfrto
        have hg4 : uci.get? 4 = none := by
          rw [List.get?_eq_none]
          omega
        have := (hno hg4).2 m hgen hfr hto
        rw [this] at hpromo
        exact absurd hpromo (by simp)
  · intro m hsome
    rcases mmu_struct b uci with h | ⟨m', frto, hp', heq, hgen, hfr, hto, _⟩
    · rw [h] at hsome
      exact absurd hsome (by simp)
    · rw [heq] at hsome ⊢
      injection hsome with hmm
      subst hmm
      exact ⟨hgen, ⟨frto.1, frto.2, by rw [hp'], hfr, hto⟩, rfl⟩

/-- A small position (kings and one white pawn) used as concrete input. -/
def pawnBoard : BoardState := parseB "4k3/8/8/8/8/8/4P3/4K3 w - - 0 1"

theorem make_move_uci_spec_witness :
    ("e2".toList.length < 4) ∧ make_move_uci pawnBoard "e2".toList = (none, pawnBoard) :=
  ⟨by decide, (make_move_uci_spec pawnBoard "e2".toList).2.1 (by decide)⟩

/-- C10: a well-formed UCI string of length at least 5 whose promotion
letter cannot be matched because every legal move on its from/to pair is a
non-promotion move fails and leaves the board unchanged (the extra letter is
not ignored). -/
theorem promo_letter_on_nonpromo_fails (b : BoardState) (uci : List Char)
    (fr tsq : Square) (h5 : 5 ≤ uci.length)
    (hp : parse_uci_squares uci = some (fr, tsq))
    (hall : ∀ m ∈ generate_moves b true,
      m.from_sq = fr → m.to_sq = tsq → m.promotion = none) :
    make_move_uci b uci = (none, b) := by
  rcases mmu_struct b uci with h | ⟨m, frto, hp', _, hgen, hfr, hto, _, hsome⟩
  · exact h
  · exfalso
    rw [hp] at hp'
    injection hp' with hfrto
    subst hfrto
    obtain ⟨pl, hpl⟩ : ∃ pl, uci.get? 4 = some pl := by
      cases hg : uci.get? 4 with
      | none =>
        rw [List.get?_eq_none] at hg
        omega
      | some pl => exact ⟨pl, rfl⟩
    obtain ⟨mp, hmp, _⟩ := hsome pl hpl
    have := hall m hgen hfr hto
    rw [this] at hmp
    exact absurd hmp (by simp)

theorem promo_letter_on_nonpromo_fails_witness :
    (5 ≤ "e2e4q".toList.length) ∧
      parse_uci_squares "e2e4q".toList = some ((1, 4), (3, 4)) ∧
      make_move_uci pawnBoard "e2e4q".toList = (none, pawnBoard) :=
  ⟨by decide, by decide,
    promo_letter_on_nonpromo_fails pawnBoard "e2e4q".toList (1, 4) (3, 4)
      (by decide) (by decide) (by decide)⟩

/-- C2: evaluation of castling generation at the failing input.  In the
position `k7/8/8/8/8/8/4p3/4K2R w K - 0 1` the black pawn on e2 = (1,4)
attacks the transit square f1 = (0,5) in the chess sense, yet kingside
castling e1–g1 is produced as a legal move: the attack oracle reports f1 as
unattacked (a pawn's diagonal move requires an occupied target), so
condition (c) of the castling check passes, and the post-move legality
filter only examines the king's destination g1. -/
theorem castle_through_pawn_attacked_square :
    (set_fen "k7/8/8/8/8/8/4p3/4K2R w K - 0 1".toList).isOk = true ∧
      (parseB "k7/8/8/8/8/8/4p3/4K2R w K - 0 1").board (1, 4) = some 'p' ∧
      (parseB "k7/8/8/8/8/8/4p3/4K2R w K - 0 1").board (0, 5) = none ∧
      (⟨(0, 4), (0, 6), 'K', none, none, false, true⟩ : Move) ∈
        generate_moves (parseB "k7/8/8/8/8/8/4p3/4K2R w K - 0 1") true ∧
      is_square_attacked (parseB "k7/8/8/8/8/8/4p3/4K2R w K - 0 1") (0, 5) 'b'
        = false := by
  refine ⟨rfl, rfl, rfl, by decide, by decide⟩

/-- The twelve legal piece letters of the case-coded board encoding. -/
def pieceLetters : List Char :=
  ['P', 'N', 'B', 'R', 'Q', 'K', 'p', 'n', 'b', 'r', 'q', 'k']

/-- Every character a serialized rank can contain: run-length digits 1–8 and
the piece letters. -/
def fenRowChars : List Char :=
  ['1', '2', '3', '4', '5', '6', '7', '8'] ++ pieceLetters

/-- One grid cell is either empty or holds a legal piece letter. -/
def validAt (b : BoardState) (r c : Nat) : Bool :=
  match b.board (r, c) with
  | some p => pieceLetters.contains p
  | none => true

/-- The en-passant target, when set, is on the 8×8 grid. -/
def validEp (b : BoardState) : Bool :=
  match b.en_passant_target with
  | some ep => decide (ep.1 < 8) && decide (ep.2 < 8)
  | none => true

/-- Well-formedness of a board state: legal piece letters on the grid, an
in-range en-passant target and a two-valued turn field.  Every reachable
state of the engine satisfies this. -/
def ValidBoard (b : BoardState) : Prop :=
  (∀ r, r < 8 → ∀ c, c < 8 → validAt b r c = true) ∧
  validEp b = true ∧ (b.turn = 'w' ∨ b.turn = 'b')

theorem fenRowChars_not_space (ch : Char) (h : ch ∈ fenRowChars) :
    isSpace ch = false := by
  fin_cases h <;> rfl

theorem fenRowChars_not_slash (ch : Char) (h : ch ∈ fenRowChars) :
    ch ≠ '/' := by
  fin_cases h <;> decide

theorem pieceLetters_sub (p : Char) (h : p ∈ pieceLetters) :
    p ∈ fenRowChars := by
  fin_cases h <;> decide

theorem pieceLetters_not_digit (p : Char) (h : p ∈ pieceLetters) :
    p.isDigit = false := by
  fin_cases h <;> rfl

theorem digitChar_facts (e : Nat) (h1 : 1 ≤ e) (h8 : e ≤ 8) :
    (digitChar e).isDigit = true ∧ (digitChar e).toNat - 48 = e ∧
      digitChar e ∈ fenRowChars := by
  interval_cases e <;> exact ⟨rfl, rfl, by decide⟩

theorem rowStrGo_chars (f : Nat → Option Char)
    (hf : ∀ cc p, cc < 8 → f cc = some p → p ∈ pieceLetters) :
    ∀ k c e, c + k ≤ 8 → e + k ≤ 8 →
      ∀ ch ∈ rowStrGo f k c e, ch ∈ fenRowChars := by
  intro k
  induction k with
  | zero =>
    intro c e _ he ch hch
    unfold rowStrGo at hch
    by_cases h0 : 0 < e
    · rw [if_pos h0] at hch
      simp only [List.mem_singleton] at hch
      subst hch
      exact (digitChar_facts e h0 (by omega)).2.2
    · rw [if_neg h0] at hch
      exact absurd hch (List.not_mem_nil ch)
  | succ k ih =>
    intro c e hc he ch hch
    unfold rowStrGo at hch
    cases hfc : f c with
    | none =>
      rw [hfc] at hch
      exact ih (c + 1) (e + 1) (by omega) (by omega) ch hch
    | some p =>
      rw [hfc] at hch
      rcases List.mem_append.mp hch with h | h
      · by_cases h0 : 0 < e
        · rw [if_pos h0] at h
          simp only [List.mem_singleton] at h
          subst h
          exact (digitChar_facts e h0 (by omega)).2.2
        · rw [if_neg h0] at h
          exact absurd h (List.not_mem_nil ch)
      · rcases List.mem_cons.mp h with h | h
        · subst h
          exact pieceLetters_sub ch (hf c ch (by omega) hfc)
        · exact ih (c + 1) 0 (by omega) (by omega) ch h

theorem rowStrGo_ne_nil (f : Nat → Option Char) :
    ∀ k c e, 0 < e + k → rowStrGo f k c e ≠ [] := by
  intro k
  induction k with
  | zero =>
    intro c e he
    unfold rowStrGo
    rw [if_pos (by omega)]
    simp
  | succ k ih =>
    intro c e _
    unfold rowStrGo
    cases f c with
    | none => exact ih (c + 1) (e + 1) (by omega)
    | some p =>
      intro hcontra
      rcases List.append_eq_nil.mp hcontra with ⟨_, h2⟩
      exact List.cons_ne_nil _ _ h2

theorem rowStrGo_congr (f g : Nat → Option Char) :
    ∀ k c e, (∀ cc, c ≤ cc → cc < c + k → f cc = g cc) →
      rowStrGo f k c e = rowStrGo g k c e := by
  intro k
  induction k with
  | zero => intro c e _; rfl
  | succ k ih =>
    intro c e hfg
    unfold rowStrGo
    rw [hfg c (Nat.le_refl c) (by omega)]
    cases g c with
    | none => exact ih (c + 1) (e + 1) (fun cc h1 h2 => hfg cc (by omega) (by omega))
    | some p =>
      rw [ih (c + 1) 0 (fun cc h1 h2 => hfg cc (by omega) (by omega))]

theorem parseRowGo_cons_digit (r : Nat) (ch : Char) (rest : List Char)
    (idx : Nat) (bd : Square → Option Char) (h : ch.isDigit = true) :
    parseRowGo r (ch :: rest) idx bd =
      parseRowGo r rest (idx + (ch.toNat - 48)) bd := by
  show (if ch.isDigit then parseRowGo r rest (idx + (ch.toNat - 48)) bd
    else if r < 8 && idx < 8 then
      parseRowGo r rest (idx + 1) (updSq bd (r, idx) (some ch))
    else Except.error ()) = _
  rw [if_pos h]

theorem parseRowGo_cons_piece (r : Nat) (ch : Char) (rest : List Char)
    (idx : Nat) (bd : Square → Option Char) (hd : ch.isDigit = false)
    (hr : r < 8) (hi : idx < 8) :
    parseRowGo r (ch :: rest) idx bd =
      parseRowGo r rest (idx + 1) (updSq bd (r, idx) (some ch)) := by
  show (if ch.isDigit then parseRowGo r rest (idx + (ch.toNat - 48)) bd
    else if r < 8 && idx < 8 then
      parseRowGo r rest (idx + 1) (updSq bd (r, idx) (some ch))
    else Except.error ()) = _
  rw [if_neg (by rw [hd]; exact Bool.false_ne_true),
    if_pos (by rw [decide_eq_true hr, decide_eq_true hi]; rfl)]

theorem rowStrGo_succ (f : Nat → Option Char) (k c e : Nat) :
    rowStrGo f (k + 1) c e =
      (match f c with
      | none => rowStrGo f k (c + 1) (e + 1)
      | some p =>
        (if 0 < e then [digitChar e] else []) ++ p :: rowStrGo f k (c + 1) 0) := rfl

theorem parseRowGo_rowStrGo (f : Nat → Option Char) (r : Nat)
    (hf : ∀ cc p, cc < 8 → f cc = some p → p ∈ pieceLetters) (hr : r < 8) :
    ∀ k c e bd, c + k = 8 → e ≤ c →
      ∃ bd', parseRowGo r (rowStrGo f k c e) (c - e) bd = Except.ok bd' ∧
        (∀ cc, bd' (r, cc) =
          if c ≤ cc ∧ cc < 8 ∧ (f cc).isSome then f cc else bd (r, cc)) ∧
        (∀ rr cc, rr ≠ r → bd' (rr, cc) = bd (rr, cc)) := by
  intro k
  induction k with
  | zero =>
    intro c e bd hc he
    have hflat : parseRowGo r (rowStrGo f 0 c e) (c - e) bd = Except.ok bd := by
      unfold rowStrGo
      by_cases h0 : 0 < e
      · rw [if_pos h0]
        unfold parseRowGo
        rw [if_pos (digitChar_facts e h0 (by omega)).1]
        rfl
      · rw [if_neg h0]
        rfl
    refine ⟨bd, hflat, fun cc => ?_, fun rr cc _ => rfl⟩
    rw [if_neg]
    rintro ⟨h1, h2, _⟩
    omega
  | succ k ih =>
    intro c e bd hc he
    have hclt : c < 8 := by omega
    cases hfc : f c with
    | none =>
      obtain ⟨bd', hok, hchar, hother⟩ := ih (c + 1) (e + 1) bd (by omega) (by omega)
      rw [show c + 1 - (e + 1) = c - e from by omega] at hok
      have hrow : rowStrGo f (k + 1) c e = rowStrGo f k (c + 1) (e + 1) := by
        rw [rowStrGo_succ, hfc]
      refine ⟨bd', by rw [hrow]; exact hok, fun cc => ?_, hother⟩
      rw [hchar cc]
      by_cases hcc : cc = c
      · subst hcc
        rw [if_neg (by omega), if_neg]
        rintro ⟨_, _, h3⟩
        rw [hfc] at h3
        exact absurd h3 (by simp)
      · refine if_congr ⟨?_, ?_⟩ rfl rfl
        · rintro ⟨h1, h2, h3⟩
          exact ⟨by omega, h2, h3⟩
        · rintro ⟨h1, h2, h3⟩
          exact ⟨by omega, h2, h3⟩
    | some p =>
      have hpmem := hf c p hclt hfc
      have hpnd := pieceLetters_not_digit p hpmem
      obtain ⟨bd', hok, hchar, hother⟩ :=
        ih (c + 1) 0 (updSq bd (r, c) (some p)) (by omega) (by omega)
      have hrow : rowStrGo f (k + 1) c e =
          (if 0 < e then [digitChar e] else []) ++ p :: rowStrGo f k (c + 1) 0 := by
        rw [rowStrGo_succ, hfc]
      have hstep : parseRowGo r (rowStrGo f (k + 1) c e) (c - e) bd =
          parseRowGo r (rowStrGo f k (c + 1) 0) (c + 1) (updSq bd (r, c) (some p)) := by
        rw [hrow]
        by_cases h0 : 0 < e
        · rw [if_pos h0]
          show parseRowGo r (digitChar e :: (p :: rowStrGo f k (c + 1) 0)) (c - e) bd = _
          rw [parseRowGo_cons_digit r _ _ _ bd (digitChar_facts e h0 (by omega)).1]
          rw [show c - e + ((digitChar e).toNat - 48) = c from by
            rw [(digitChar_facts e h0 (by omega)).2.1]; omega]
          rw [parseRowGo_cons_piece r p _ c bd hpnd hr hclt]
        · rw [if_neg h0, show c - e = c from by omega]
          show parseRowGo r (p :: rowStrGo f k (c + 1) 0) c bd = _
          rw [parseRowGo_cons_piece r p _ c bd hpnd hr hclt]
      rw [show (c + 1 : Nat) - 0 = c + 1 from rfl] at hok
      refine ⟨bd', by rw [hstep]; exact hok, fun cc => ?_, fun rr cc hrr => ?_⟩
      · rw [hchar cc]
        by_cases hcc : cc = c
        · subst hcc
          rw [if_neg (by omega), if_pos ⟨Nat.le_refl cc, hclt, by rw [hfc]; rfl⟩,
            hfc]
          show (if ((r, cc) : Square) = (r, cc) then some p else bd (r, cc)) = some p
          rw [if_pos rfl]
        · have hupd : updSq bd (r, c) (some p) (r, cc) = bd (r, cc) := by
            unfold updSq
            rw [if_neg]
            intro hp
            exact hcc (congrArg Prod.snd hp)
          rw [hupd]
          refine if_congr ⟨?_, ?_⟩ rfl rfl
          · rintro ⟨h1, h2, h3⟩
            exact ⟨by omega, h2, h3⟩
          · rintro ⟨h1, h2, h3⟩
            exact ⟨by omega, h2, h3⟩
      · rw [hother rr cc hrr]
        unfold updSq
        rw [if_neg]
        intro hp
        exact hrr (congrArg Prod.fst hp)

theorem parseRows_cons (row : List Char) (rest : List (List Char)) (r : Nat)
    (bd : Square → Option Char) :
    parseRows (row :: rest) r bd =
      (match parseRowGo r row 0 bd with
      | Except.ok bd' => parseRows rest (r + 1) bd'
      | Except.error e => Except.error e) := rfl

theorem parseRows_append (l1 l2 : List (List Char)) :
    ∀ r bd, parseRows (l1 ++ l2) r bd =
      (match parseRows l1 r bd with
      | Except.ok bd' => parseRows l2 (r + l1.length) bd'
      | Except.error e => Except.error e) := by
  induction l1 with
  | nil => intro r bd; rfl
  | cons row rest ih =>
    intro r bd
    rw [show ((row :: rest) ++ l2) = row :: (rest ++ l2) from rfl,
      parseRows_cons, parseRows_cons]
    cases hrow : parseRowGo r row 0 bd with
    | ok bd' =>
      dsimp only
      rw [ih (r + 1) bd']
      cases parseRows rest (r + 1) bd' with
      | ok bd2 =>
        show parseRows l2 (r + 1 + rest.length) bd2 =
          parseRows l2 (r + (row :: rest).length) bd2
        rw [show r + 1 + rest.length = r + (row :: rest).length from by
          rw [List.length_cons]; omega]
      | error e => rfl
    | error e => rfl

theorem revRows_length (F : Nat → Nat → Option Char) :
    ∀ k, (revRows F k).length = k := by
  intro k
  induction k with
  | zero => rfl
  | succ k ih => show (revRows F k).length + 1 = k + 1; rw [ih]

theorem parseRows_revRows (F : Nat → Nat → Option Char)
    (hF : ∀ r cc p, r < 8 → cc < 8 → F r cc = some p → p ∈ pieceLetters) :
    ∀ k, k ≤ 8 → ∀ bd, ∃ bd',
      parseRows (revRows F k).reverse 0 bd = Except.ok bd' ∧
      (∀ rr cc, bd' (rr, cc) =
        if rr < k ∧ cc < 8 ∧ (F rr cc).isSome then F rr cc else bd (rr, cc)) := by
  intro k
  induction k with
  | zero =>
    intro _ bd
    refine ⟨bd, rfl, fun rr cc => ?_⟩
    rw [if_neg]
    rintro ⟨h1, _, _⟩
    omega
  | succ k ih =>
    intro hk bd
    obtain ⟨bd1, hok1, hchar1⟩ := ih (by omega) bd
    obtain ⟨bd2, hok2, hchar2, hother2⟩ :=
      parseRowGo_rowStrGo (F k) k (fun cc p hcc => hF k cc p (by omega) hcc)
        (by omega) 8 0 0 bd1 rfl (Nat.le_refl 0)
    have hrev : (revRows F (k + 1)).reverse =
        (revRows F k).reverse ++ [rowStr (F k)] := by
      show (rowStr (F k) :: revRows F k).reverse = _
      rw [List.reverse_cons]
    have hok2' : parseRowGo k (rowStr (F k)) 0 bd1 = Except.ok bd2 := hok2
    refine ⟨bd2, ?_, fun rr cc => ?_⟩
    · rw [hrev, parseRows_append, hok1]
      dsimp only
      rw [List.length_reverse, revRows_length, Nat.zero_add, parseRows_cons, hok2']
      rfl
    · by_cases hrr : rr = k
      · subst hrr
        rw [hchar2 cc]
        by_cases hcc : cc < 8 ∧ (F rr cc).isSome = true
        · rw [if_pos ⟨Nat.zero_le cc, hcc.1, hcc.2⟩, if_pos ⟨by omega, hcc.1, hcc.2⟩]
        · rw [if_neg (fun h => hcc ⟨h.2.1, h.2.2⟩), hchar1 rr cc,
            if_neg (by rintro ⟨h1, h2, h3⟩; omega), if_neg (fun h => hcc ⟨h.2.1, h.2.2⟩)]
      · rw [hother2 rr cc hrr, hchar1 rr cc]
        refine if_congr ⟨?_, ?_⟩ rfl rfl
        · rintro ⟨h1, h2, h3⟩
          exact ⟨by omega, h2, h3⟩
        · rintro ⟨h1, h2, h3⟩
          exact ⟨by omega, h2, h3⟩

theorem splitSlashAux_no_slash (x : List Char) (hx : ∀ ch ∈ x, ch ≠ '/') :
    ∀ acc rest, splitSlashAux acc (x ++ rest) =
      splitSlashAux (x.reverse ++ acc) rest := by
  induction x with
  | nil => intro acc rest; rfl
  | cons c cs ih =>
    intro acc rest
    show (if c = '/' then acc.reverse :: splitSlashAux [] (cs ++ rest)
      else splitSlashAux (c :: acc) (cs ++ rest)) = _
    rw [if_neg (hx c (List.mem_cons_self c cs))]
    rw [ih (fun ch hch => hx ch (List.mem_cons_of_mem c hch)) (c :: acc) rest]
    rw [List.reverse_cons, List.append_assoc]
    rfl

theorem splitOnSlash_joinSlash (l : List (List Char))
    (hl : ∀ x ∈ l, ∀ ch ∈ x, ch ≠ '/') (hne : l ≠ []) :
    splitOnSlash (joinSlash l) = l := by
  induction l with
  | nil => exact absurd rfl hne
  | cons x rest ih =>
    cases rest with
    | nil =>
      show splitSlashAux [] (joinSlash [x]) = [x]
      have h1 := splitSlashAux_no_slash x
        (hl x (List.mem_cons_self x [])) [] []
      rw [List.append_nil, List.append_nil] at h1
      rw [show joinSlash [x] = x from rfl, h1]
      show [x.reverse.reverse] = [x]
      rw [List.reverse_reverse]
    | cons y ys =>
      show splitSlashAux [] (joinSlash (x :: y :: ys)) = x :: y :: ys
      rw [show joinSlash (x :: y :: ys) = x ++ '/' :: joinSlash (y :: ys) from rfl]
      rw [splitSlashAux_no_slash x (hl x (List.mem_cons_self x (y :: ys))) [] _]
      rw [List.append_nil]
      show x.reverse.reverse :: splitSlashAux [] (joinSlash (y :: ys)) = _
      rw [List.reverse_reverse]
      have ih' : splitSlashAux [] (joinSlash (y :: ys)) = y :: ys :=
        ih (fun z hz => hl z (List.mem_cons_of_mem x hz)) (List.cons_ne_nil y ys)
      rw [ih']

theorem splitWsAux_no_space (t : List Char) (ht : ∀ ch ∈ t, isSpace ch = false) :
    ∀ acc rest, splitWsAux acc (t ++ rest) =
      splitWsAux (t.reverse ++ acc) rest := by
  induction t with
  | nil => intro acc rest; rfl
  | cons c cs ih =>
    intro acc rest
    show (if isSpace c then
        (if acc = [] then splitWsAux [] (cs ++ rest)
          else acc.reverse :: splitWsAux [] (cs ++ rest))
      else splitWsAux (c :: acc) (cs ++ rest)) = _
    rw [if_neg (by rw [ht c (List.mem_cons_self c cs)]; exact Bool.false_ne_true)]
    rw [ih (fun ch hch => ht ch (List.mem_cons_of_mem c hch)) (c :: acc) rest]
    rw [List.reverse_cons, List.append_assoc]
    rfl

theorem splitWs_token (t rest : List Char)
    (ht : ∀ ch ∈ t, isSpace ch = false) (htne : t ≠ []) :
    splitWs (t ++ ' ' :: rest) = t :: splitWs rest := by
  show splitWsAux [] (t ++ ' ' :: rest) = t :: splitWsAux [] rest
  rw [splitWsAux_no_space t ht [] (' ' :: rest), List.append_nil]
  show (if isSpace ' ' then
      (if t.reverse = [] then splitWsAux [] rest
        else t.reverse.reverse :: splitWsAux [] rest)
    else splitWsAux (' ' :: t.reverse) rest) = _
  rw [if_pos (show isSpace ' ' = true from rfl)]
  rw [if_neg (show ¬(t.reverse = []) from by
    intro h
    exact htne (by rw [← List.reverse_reverse t, h]; rfl))]
  rw [List.reverse_reverse]

theorem splitWs_last (t : List Char)
    (ht : ∀ ch ∈ t, isSpace ch = false) (htne : t ≠ []) :
    splitWs t = [t] := by
  show splitWsAux [] t = [t]
  have h1 := splitWsAux_no_space t ht [] []
  rw [List.append_nil, List.append_nil] at h1
  rw [h1]
  show (if t.reverse = [] then [] else [t.reverse.reverse]) = [t]
  rw [if_neg (show ¬(t.reverse = []) from by
    intro h
    exact htne (by rw [← List.reverse_reverse t, h]; rfl))]
  rw [List.reverse_reverse]

theorem revRows_chars (F : Nat → Nat → Option Char)
    (hF : ∀ r cc p, r < 8 → cc < 8 → F r cc = some p → p ∈ pieceLetters) :
    ∀ k, k ≤ 8 → ∀ row ∈ revRows F k, ∀ ch ∈ row, ch ∈ fenRowChars := by
  intro k
  induction k with
  | zero => intro _ row hrow; exact absurd hrow (List.not_mem_nil row)
  | succ k ih =>
    intro hk row hrow ch hch
    rcases List.mem_cons.mp hrow with h | h
    · subst h
      exact rowStrGo_chars (F k) (fun cc p hcc => hF k cc p (by omega) hcc)
        8 0 0 (by omega) (by omega) ch hch
    · exact ih (by omega) row h ch hch

theorem joinSlash_chars :
    ∀ l : List (List Char), ∀ ch ∈ joinSlash l,
      (∃ x ∈ l, ch ∈ x) ∨ ch = '/' := by
  intro l
  induction l with
  | nil => intro ch hch; exact absurd hch (List.not_mem_nil ch)
  | cons x rest ih =>
    intro ch hch
    cases rest with
    | nil =>
      exact Or.inl ⟨x, List.mem_cons_self x [], hch⟩
    | cons y ys =>
      rw [show joinSlash (x :: y :: ys) = x ++ '/' :: joinSlash (y :: ys) from rfl]
        at hch
      rcases List.mem_append.mp hch with h | h
      · exact Or.inl ⟨x, List.mem_cons_self x (y :: ys), h⟩
      · rcases List.mem_cons.mp h with h | h
        · exact Or.inr h
        · rcases ih ch h with ⟨z, hz, hchz⟩ | h
          · exact Or.inl ⟨z, List.mem_cons_of_mem x hz, hchz⟩
          · exact Or.inr h

theorem placementStr_ne_nil (F : Nat → Nat → Option Char) :
    placementStr F ≠ [] := by
  show rowStr (F 7) ++ '/' :: joinSlash (revRows F 7) ≠ []
  intro h
  rcases List.append_eq_nil.mp h with ⟨-, h2⟩
  exact List.cons_ne_nil _ _ h2

theorem turn_roundtrip (t : Char) (ht : t = 'w' ∨ t = 'b') :
    (if turnStr t = ['w'] then 'w' else 'b') = t ∧
      (∀ ch ∈ turnStr t, isSpace ch = false) ∧ turnStr t ≠ [] := by
  rcases ht with h | h <;> subst h <;> exact ⟨rfl, by decide, by decide⟩

theorem cast_roundtrip (cK cQ ck cq : Bool) :
    (castStr cK cQ ck cq).contains 'K' = cK ∧
      (castStr cK cQ ck cq).contains 'Q' = cQ ∧
      (castStr cK cQ ck cq).contains 'k' = ck ∧
      (castStr cK cQ ck cq).contains 'q' = cq ∧
      (∀ ch ∈ castStr cK cQ ck cq, isSpace ch = false) ∧
      castStr cK cQ ck cq ≠ [] := by
  cases cK <;> cases cQ <;> cases ck <;> cases cq <;> exact ⟨rfl, rfl, rfl, rfl, by decide, by decide⟩

theorem ep_roundtrip (ep : Option Square)
    (hv : validEp ⟨fun _ => none, 'w', false, false, false, false, ep, 0, 1, [], []⟩ = true) :
    parseEp (epStr ep) = Except.ok ep ∧
      (∀ ch ∈ epStr ep, isSpace ch = false) ∧ epStr ep ≠ [] := by
  cases ep with
  | none => exact ⟨rfl, by decide, by decide⟩
  | some e =>
    obtain ⟨er, ec⟩ := e
    unfold validEp at hv
    simp only [Bool.and_eq_true, decide_eq_true_eq] at hv
    obtain ⟨h1, h2⟩ := hv
    interval_cases er <;> interval_cases ec <;> exact ⟨rfl, by decide, by decide⟩

theorem revRows_congr (F G : Nat → Nat → Option Char) :
    ∀ k, (∀ rr, rr < k → ∀ cc, cc < 8 → F rr cc = G rr cc) →
      revRows F k = revRows G k := by
  intro k
  induction k with
  | zero => intro _; rfl
  | succ k ih =>
    intro h
    show rowStr (F k) :: revRows F k = rowStr (G k) :: revRows G k
    rw [show rowStr (F k) = rowStr (G k) from
      rowStrGo_congr (F k) (G k) 8 0 0
        (fun cc h0 h8 => h k (by omega) cc (by omega)),
      ih (fun rr hr cc hc => h rr (by omega) cc hc)]

theorem set_fen_fields (fen f0 f1 f2 f3 : List Char)
    (hsplit : splitWs fen = [f0, f1, f2, f3]) :
    set_fen fen =
      (match parseRows (splitOnSlash f0).reverse 0 (fun _ => none) with
      | Except.error _ => Except.error ()
      | Except.ok bd =>
        match parseEp f3 with
        | Except.error _ => Except.error ()
        | Except.ok ep =>
          Except.ok (finishBoard bd (if f1 = ['w'] then 'w' else 'b')
            (f2.contains 'K') (f2.contains 'Q') (f2.contains 'k')
            (f2.contains 'q') ep 0 1)) := by
  unfold set_fen
  rw [hsplit]
  simp only [List.get?]
  cases parseRows (splitOnSlash f0).reverse 0 (fun _ => none) with
  | error e => rfl
  | ok bd =>
    dsimp only
    cases parseEp f3 with
    | error e => rfl
    | ok ep =>
      dsimp only
      rw [if_neg (show ¬(6 ≤ ([f0, f1, f2, f3] : List (List Char)).length) from by
        simp)]

/-- C7: serializing a well-formed board with `_fen_for_repetition`,
re-parsing that string with `set_fen`, and serializing again yields the
identical string. -/
theorem fen_roundtrip (b : BoardState) (hv : ValidBoard b) :
    ∃ b', set_fen (fen_for_repetition b) = Except.ok b' ∧
      fen_for_repetition b' = fen_for_repetition b := by
  obtain ⟨hpieces, hep, hturn⟩ := hv
  have hF : ∀ r cc p, r < 8 → cc < 8 → b.board (r, cc) = some p →
      p ∈ pieceLetters := by
    intro r cc p hr hc hsome
    have hval := hpieces r hr cc hc
    unfold validAt at hval
    rw [hsome] at hval
    exact List.mem_of_elem_eq_true hval
  have hplchars : ∀ ch ∈ placementStr (fun r c => b.board (r, c)),
      isSpace ch = false := by
    intro ch hch
    rcases joinSlash_chars (revRows (fun r c => b.board (r, c)) 8) ch hch with
      ⟨row, hrow, hchrow⟩ | h
    · exact fenRowChars_not_space ch
        (revRows_chars _ hF 8 (Nat.le_refl 8) row hrow ch hchrow)
    · subst h
      rfl
  have hplnn := placementStr_ne_nil (fun r c => b.board (r, c))
  obtain ⟨hturnrt, hturnchars, hturnnn⟩ := turn_roundtrip b.turn hturn
  obtain ⟨hcK, hcQ, hck, hcq, hcastchars, hcastnn⟩ :=
    cast_roundtrip b.cr_K b.cr_Q b.cr_k b.cr_q
  obtain ⟨heprt, hepchars, hepnn⟩ := ep_roundtrip b.en_passant_target hep
  have hsplit : splitWs (fen_for_repetition b) =
      [placementStr (fun r c => b.board (r, c)), turnStr b.turn,
        castStr b.cr_K b.cr_Q b.cr_k b.cr_q, epStr b.en_passant_target] := by
    unfold fen_for_repetition
    rw [splitWs_token _ _ hplchars hplnn,
      splitWs_token _ _ hturnchars hturnnn,
      splitWs_token _ _ hcastchars hcastnn,
      splitWs_last _ hepchars hepnn]
  have hsos : splitOnSlash (placementStr (fun r c => b.board (r, c))) =
      revRows (fun r c => b.board (r, c)) 8 := by
    unfold placementStr
    refine splitOnSlash_joinSlash _ ?_ ?_
    · intro row hrow ch hch
      exact fenRowChars_not_slash ch
        (revRows_chars _ hF 8 (Nat.le_refl 8) row hrow ch hch)
    · intro h
      have hlen := congrArg List.length h
      rw [revRows_length] at hlen
      exact absurd hlen (by decide)
  obtain ⟨bd', hok, hchar⟩ :=
    parseRows_revRows (fun r c => b.board (r, c)) hF 8 (Nat.le_refl 8)
      (fun _ => none)
  have hbd : ∀ rr, rr < 8 → ∀ cc, cc < 8 → bd' (rr, cc) = b.board (rr, cc) := by
    intro rr hr cc hc
    rw [hchar rr cc]
    by_cases hs : (b.board (rr, cc)).isSome = true
    · rw [if_pos ⟨hr, hc, hs⟩]
    · rw [if_neg (fun h => hs h.2.2)]
      exact (Option.not_isSome_iff_eq_none.mp hs).symm
  refine ⟨finishBoard bd' (if turnStr b.turn = ['w'] then 'w' else 'b')
    ((castStr b.cr_K b.cr_Q b.cr_k b.cr_q).contains 'K')
    ((castStr b.cr_K b.cr_Q b.cr_k b.cr_q).contains 'Q')
    ((castStr b.cr_K b.cr_Q b.cr_k b.cr_q).contains 'k')
    ((castStr b.cr_K b.cr_Q b.cr_k b.cr_q).contains 'q')
    b.en_passant_target 0 1, ?_, ?_⟩
  · rw [set_fen_fields _ _ _ _ _ hsplit, hsos, hok]
    dsimp only
    rw [heprt]
  · rw [hturnrt, hcK, hcQ, hck, hcq]
    show placementStr (fun r c => bd' (r, c)) ++
        ' ' :: (turnStr b.turn ++
          ' ' :: (castStr b.cr_K b.cr_Q b.cr_k b.cr_q ++
            ' ' :: epStr b.en_passant_target)) =
      placementStr (fun r c => b.board (r, c)) ++
        ' ' :: (turnStr b.turn ++
          ' ' :: (castStr b.cr_K b.cr_Q b.cr_k b.cr_q ++
            ' ' :: epStr b.en_passant_target))
    rw [show placementStr (fun r c => bd' (r, c)) =
        placementStr (fun r c => b.board (r, c)) from by
      unfold placementStr
      rw [revRows_congr _ _ 8 (fun rr hr cc hc => hbd rr hr cc hc)]]

theorem fen_roundtrip_witness :
    ValidBoard startBoard ∧
      ∃ b', set_fen (fen_for_repetition startBoard) = Except.ok b' ∧
        fen_for_repetition b' = fen_for_repetition startBoard :=
  ⟨by unfold ValidBoard; decide, fen_roundtrip startBoard (by unfold ValidBoard; decide)⟩
